import Mathlib

/-!
Shallow embedding of the core of the `ashare-trading-reporter` scripts:

* `PriceAlerts` embeds `scripts/a_share_price_alerts.py` — the per-day
  trigger/deduplication engine (`fire`, the evaluation order in `main`,
  `is_trading_time`, `compute_vwap`, `send_message`).
* `ReportV2` embeds the aggregation and provider-chain core of
  `scripts/a_share_intraday_report_v2.py` (`summarize_ohlc`, `Ohlc.vwap`,
  `ProviderChain.kline`).

Prices, volumes and amounts are modelled as rationals; timestamps of bars
as naturals; Python dicts as association lists with first-match lookup.
Side effects (state-file writes, outbound messages) are modelled as an
explicit event trace.  Network fetching, argument parsing and message-text
formatting are external collaborators and stay outside the model; a
notify event records the trigger key instead of the formatted text.
-/

namespace PriceAlerts

/-- Quote dataclass from `a_share_price_alerts.py` (fields of
`fetch_sina_quote`'s result). -/
structure Quote where
  name : String
  open_ : ℚ
  preclose : ℚ
  price : ℚ
  high : ℚ
  low : ℚ
  volume : ℚ
  amount : ℚ
  date : String
  time : String
deriving DecidableEq

/-- Price-vs-VWAP relation strings used by `main` (`above`/`below`/`equal`). -/
inductive Rel where
  | above
  | below
  | equal
deriving DecidableEq

/-- Quantisation to hundredths — the nearest integer to `100 * q`,
computed as `⌊100 * q + 1/2⌋` in integer arithmetic.  Models the
2-decimal fixed formatting used to build trigger keys
(`touch_up_10.00` and the like). -/
def quant2 (q : ℚ) : ℤ := Int.fdiv (200 * q.num + (q.den : ℤ)) (2 * (q.den : ℤ))

/-- Trigger identifiers: `touch_up_⟨level:.2f⟩`, `break_dn_⟨level:.2f⟩`,
`vwap_cross_⟨rel⟩`.  The level part is carried via `quant2`. -/
inductive TrigKey where
  | touchUp (cents : ℤ)
  | breakDn (cents : ℤ)
  | vwapCross (r : Rel)
deriving DecidableEq

/-- Persisted alert state: the JSON object written by `save_state`.
`fired` models the `fired` dict (trigger-id to boolean). -/
structure AlertState where
  date : String
  fired : List (TrigKey × Bool)
  vwapRel : Option Rel
  lastFireAt : Option String
deriving DecidableEq

/-- Python `fired.get(key)` with its falsy default. -/
def firedGet (m : List (TrigKey × Bool)) (k : TrigKey) : Bool :=
  match m.lookup k with
  | some b => b
  | none => false

/-- Python `fired[key] = v` (newest binding shadows older ones). -/
def firedSet (m : List (TrigKey × Bool)) (k : TrigKey) (v : Bool) :
    List (TrigKey × Bool) :=
  (k, v) :: m

/-- Trigger configuration resolved in `main` (config file overriding CLI
defaults): `levels_up`, `breakdown`, `vwap_cross`. -/
structure Config where
  levelsUp : List ℚ
  breakdown : ℚ
  vwapCross : Bool
deriving DecidableEq

/-- Result object of `subprocess.run`. -/
structure CompletedProcess where
  returncode : Int
deriving DecidableEq

/-- Semantics of `subprocess.run(cmd, check=...)` at the granularity the
alerts script uses it: it raises `CalledProcessError` exactly when `check`
is set and the child exits non-zero. -/
def subprocessRun (_cmd : List String) (check : Bool) (returncode : Int) :
    Except String CompletedProcess :=
  if check ∧ returncode ≠ 0 then Except.error "CalledProcessError"
  else Except.ok ⟨returncode⟩

/-- `send_message`: invokes the external CLI via `subprocess.run` with
`check=False`; `returncode` is the child's exit status. -/
def send_message (channel target message : String) (returncode : Int) :
    Except String CompletedProcess :=
  subprocessRun
    ["openclaw", "message", "send", "--channel", channel,
     "--target", target, "--message", message]
    false returncode

/-- Observable effects of one evaluation, in order of occurrence.
`notify` records the trigger key of the message sent and the exit status
of the delivery subprocess. -/
inductive Event where
  | fetchQuote
  | loadState
  | saveState (s : AlertState)
  | notify (key : TrigKey) (returncode : Int)
deriving DecidableEq

/-- The `fire` closure in `main`: no-op when the key already fired; else
mark fired, stamp `last_fire_at`, persist (`save_state`), then send the
message.  The delivery exit status `rc` is ignored (`check=False`). -/
def fire (st : AlertState) (ts : String) (key : TrigKey) (rc : Int) :
    AlertState × List Event :=
  if firedGet st.fired key then (st, [])
  else
    let st1 : AlertState :=
      { st with fired := firedSet st.fired key true, lastFireAt := some ts }
    (st1, [Event.saveState st1, Event.notify key rc])

/-- Lines 201-204 of `main`: `if state.get("date") != day: state = {"date": day, "fired": {}}`;
a missing or unparsable state file reads as `{}`, whose date is never `day`. -/
def resetIfNewDay (day : String) (loaded : Option AlertState) : AlertState :=
  match loaded with
  | none => ⟨day, [], none, none⟩
  | some s => if s.date = day then s else ⟨day, [], none, none⟩

/-- Python truthiness of the optional VWAP float (`if vwap:`). -/
def truthy (v : Option ℚ) : Bool :=
  match v with
  | none => false
  | some x => decide (x ≠ 0)

/-- `rel = "above" if q.price > vwap else "below" if q.price < vwap else "equal"`,
computed only when `vwap` is truthy. -/
def relOf (price : ℚ) (vwap : Option ℚ) : Option Rel :=
  match vwap with
  | none => none
  | some v =>
    if v = 0 then none
    else if price > v then some Rel.above
    else if price < v then some Rel.below
    else some Rel.equal

/-- The upside-level loop of `main`: for each level in list order, if
`q.price >= lv and not fired.get(key)` then fire and return. -/
def evalLevels (st : AlertState) (ts : String) (price : ℚ) (rc : Int) :
    List ℚ → Option (AlertState × List Event)
  | [] => none
  | lv :: rest =>
    if price ≥ lv ∧ firedGet st.fired (TrigKey.touchUp (quant2 lv)) = false then
      some (fire st ts (TrigKey.touchUp (quant2 lv)) rc)
    else evalLevels st ts price rc rest

/-- The breakdown branch of `main`: `if q.price < bd and not fired.get(key_bd)`. -/
def evalBreakdown (st : AlertState) (ts : String) (price : ℚ) (rc : Int)
    (bd : ℚ) : Option (AlertState × List Event) :=
  if price < bd ∧ firedGet st.fired (TrigKey.breakDn (quant2 bd)) = false then
    some (fire st ts (TrigKey.breakDn (quant2 bd)) rc)
  else none

/-- The VWAP-cross tail of `main`: guarded by
`vwap_cross_enabled and vwap and rel in ("above","below")`; fires on a
relation change (`last_rel and last_rel != rel`) with an unfired key, and
writes the latest relation back (with a save) whenever the guard holds. -/
def evalVwapCross (st : AlertState) (ts : String) (rc : Int) (enabled : Bool)
    (vwap : Option ℚ) (rel : Option Rel) : AlertState × List Event :=
  match rel with
  | some r =>
    if enabled = true ∧ truthy vwap = true ∧ (r = Rel.above ∨ r = Rel.below) then
      if st.vwapRel.isSome = true ∧ st.vwapRel ≠ some r then
        if firedGet st.fired (TrigKey.vwapCross r) = false then
          let fr := fire st ts (TrigKey.vwapCross r) rc
          let st2 : AlertState := { fr.1 with vwapRel := some r }
          (st2, fr.2 ++ [Event.saveState st2])
        else
          let st2 : AlertState := { st with vwapRel := some r }
          (st2, [Event.saveState st2])
      else
        let st2 : AlertState := { st with vwapRel := some r }
        (st2, [Event.saveState st2])
    else (st, [])
  | none => (st, [])

/-- The trigger-evaluation part of `main`, from the date-rollover reset to
the end of the function: upside levels first, then breakdown, then the
VWAP cross.  `loaded` is the `load_state` result (`none` for a missing or
unparsable file), `vwap` the `compute_vwap` result (`none` on error),
`rc` the delivery exit status. -/
def evaluate (cfg : Config) (loaded : Option AlertState) (q : Quote)
    (vwap : Option ℚ) (rc : Int) : AlertState × List Event :=
  let st := resetIfNewDay q.date loaded
  let ts := q.date ++ " " ++ q.time
  match evalLevels st ts q.price rc cfg.levelsUp with
  | some r => r
  | none =>
    match evalBreakdown st ts q.price rc cfg.breakdown with
    | some r => r
    | none => evalVwapCross st ts rc cfg.vwapCross vwap (relOf q.price vwap)

/-- Wall-clock instant: Python `weekday()` convention (Monday = 0,
Sunday = 6) and seconds since midnight. -/
structure Clock where
  weekday : ℕ
  secs : ℕ
deriving DecidableEq

/-- `is_trading_time`: weekends excluded, sessions 09:30-11:30 and
13:00-15:00 inclusive (34200, 41400, 46800, 54000 seconds). -/
def is_trading_time (now : Clock) : Bool :=
  if 5 ≤ now.weekday then false
  else if 34200 ≤ now.secs ∧ now.secs ≤ 41400 then true
  else if 46800 ≤ now.secs ∧ now.secs ≤ 54000 then true
  else false

/-- One invocation of `main` after argument parsing: outside trading time
it returns before any fetch, state access or notify; otherwise it fetches
the quote, loads state and evaluates triggers. -/
def runPoll (now : Clock) (cfg : Config) (loaded : Option AlertState)
    (q : Quote) (vwap : Option ℚ) (rc : Int) : List Event :=
  if is_trading_time now then
    Event.fetchQuote :: Event.loadState :: (evaluate cfg loaded q vwap rc).2
  else []

/-- One minute-kline row as consumed by `compute_vwap` (`day`, `volume`,
`amount`; `to_num` coercion of missing fields is upstream of the model). -/
structure KRow where
  day : String
  volume : ℚ
  amount : ℚ
deriving DecidableEq

/-- Python `str.startswith`, as character-prefix matching. -/
def pyStartsWith (s p : String) : Bool := p.data.isPrefixOf s.data

/-- `compute_vwap`: keep rows of the requested day, return `None` when no
row matches or the summed volume is falsy, else amount/volume. -/
def compute_vwap (rows : List KRow) (yyyy_mm_dd : String) : Option ℚ :=
  let rows := rows.filter (fun r => pyStartsWith r.day yyyy_mm_dd)
  if rows = [] then none
  else
    let vol := (rows.map KRow.volume).sum
    let amt := (rows.map KRow.amount).sum
    if vol = 0 then none else some (amt / vol)

/-- Trigger keys extracted from the notify events of a trace. -/
def notifiedKeys (evs : List Event) : List TrigKey :=
  evs.filterMap fun e =>
    match e with
    | Event.notify k _ => some k
    | _ => none

end PriceAlerts

namespace ReportV2

/-- Bar dataclass from `a_share_intraday_report_v2.py`; `dt` is the bar
timestamp (naturals stand in for `datetime`, which the script only ever
compares and sorts). -/
structure Bar where
  dt : ℕ
  open_ : ℚ
  high : ℚ
  low : ℚ
  close : ℚ
  volume : ℚ
  amount : ℚ
deriving DecidableEq

/-- Ohlc dataclass: a session summary. -/
structure Ohlc where
  open_ : ℚ
  high : ℚ
  low : ℚ
  close : ℚ
  vol : ℚ
  amt : ℚ
deriving DecidableEq

/-- `Ohlc.vwap` property: `(self.amt / self.vol) if self.vol else None`. -/
def Ohlc.vwap (o : Ohlc) : Option ℚ :=
  if o.vol = 0 then none else some (o.amt / o.vol)

/-- Python `max(...)` over a non-empty collection, seeded with its head. -/
def pymax (x : ℚ) (xs : List ℚ) : ℚ := xs.foldl max x

/-- Python `min(...)` over a non-empty collection, seeded with its head. -/
def pymin (x : ℚ) (xs : List ℚ) : ℚ := xs.foldl min x

/-- `summarize_ohlc`: `None` on an empty list, else first open, max high,
min low, last close, summed volume, summed amount — reducing the list in
the order given (no sorting happens here; providers sort). -/
def summarize_ohlc (bars : List Bar) : Option Ohlc :=
  match bars with
  | [] => none
  | b :: bs =>
    some
      { open_ := b.open_
        high := pymax b.high (bs.map Bar.high)
        low := pymin b.low (bs.map Bar.low)
        close := (bs.getLastD b).close
        vol := ((b :: bs).map Bar.volume).sum
        amt := ((b :: bs).map Bar.amount).sum }

/-- Outcome of calling one provider's `kline`: either the bar list it
returned or the exception it raised (carried as a message). -/
def ProviderResult : Type := Except String (List Bar)

/-- A provider attempt that failed, or succeeded with zero rows. -/
def failsOrEmpty : Except String (List Bar) → Bool
  | Except.error _ => true
  | Except.ok bs => bs.isEmpty

/-- Accumulation of `last_err` across the loop body: only a raising
provider updates it. -/
def lastErrUpd (acc : Option String) (r : Except String (List Bar)) :
    Option String :=
  match r with
  | Except.error e => some e
  | Except.ok _ => acc

/-- The `last_err` value after the whole loop ran. -/
def lastErrOf (rs : List (Except String (List Bar))) : Option String :=
  rs.foldl lastErrUpd none

/-- Loop body of `ProviderChain.kline` with the running `last_err`:
return the first non-empty success, skip failures (remembering the
error), skip empty successes (remembering nothing). -/
def chain_kline_go (acc : Option String) :
    List (Except String (List Bar)) → Except (Option String) (List Bar)
  | [] => Except.error acc
  | r :: rs =>
    match r with
    | Except.ok bars => if bars.isEmpty then chain_kline_go acc rs else Except.ok bars
    | Except.error e => chain_kline_go (some e) rs

/-- `ProviderChain.kline` over the attempt outcomes of its providers in
order; the chain error carries `last_err` (possibly `None`). -/
def chain_kline (rs : List (Except String (List Bar))) :
    Except (Option String) (List Bar) :=
  chain_kline_go none rs

end ReportV2

namespace ReportV2

theorem pymax_mem (x : ℚ) (xs : List ℚ) : pymax x xs ∈ x :: xs := by
  induction xs generalizing x with
  | nil => simp [pymax]
  | cons y ys ih =>
    simp only [pymax, List.foldl_cons]
    have h : List.foldl max (max x y) ys ∈ max x y :: ys := ih (max x y)
    rcases List.mem_cons.mp h with h1 | h1
    · rcases max_choice x y with hxy | hxy
      · rw [h1, hxy]
        exact List.mem_cons_self _ _
      · rw [h1, hxy]
        exact List.mem_cons_of_mem _ (List.mem_cons_self _ _)
    · exact List.mem_cons_of_mem _ (List.mem_cons_of_mem _ h1)

theorem le_pymax (x : ℚ) (xs : List ℚ) : ∀ a ∈ x :: xs, a ≤ pymax x xs := by
  induction xs generalizing x with
  | nil =>
    intro a ha
    simp only [List.mem_singleton] at ha
    simp [pymax, ha]
  | cons y ys ih =>
    intro a ha
    simp only [pymax, List.foldl_cons]
    have hseed : max x y ≤ List.foldl max (max x y) ys :=
      ih (max x y) (max x y) (List.mem_cons_self _ _)
    rcases List.mem_cons.mp ha with h1 | h1
    · exact le_trans (h1 ▸ le_max_left x y) hseed
    · rcases List.mem_cons.mp h1 with h2 | h2
      · exact le_trans (h2 ▸ le_max_right x y) hseed
      · exact ih (max x y) a (List.mem_cons_of_mem _ h2)

theorem pymin_mem (x : ℚ) (xs : List ℚ) : pymin x xs ∈ x :: xs := by
  induction xs generalizing x with
  | nil => simp [pymin]
  | cons y ys ih =>
    simp only [pymin, List.foldl_cons]
    have h : List.foldl min (min x y) ys ∈ min x y :: ys := ih (min x y)
    rcases List.mem_cons.mp h with h1 | h1
    · rcases min_choice x y with hxy | hxy
      · rw [h1, hxy]
        exact List.mem_cons_self _ _
      · rw [h1, hxy]
        exact List.mem_cons_of_mem _ (List.mem_cons_self _ _)
    · exact List.mem_cons_of_mem _ (List.mem_cons_of_mem _ h1)

theorem pymin_le (x : ℚ) (xs : List ℚ) : ∀ a ∈ x :: xs, pymin x xs ≤ a := by
  induction xs generalizing x with
  | nil =>
    intro a ha
    simp only [List.mem_singleton] at ha
    simp [pymin, ha]
  | cons y ys ih =>
    intro a ha
    simp only [pymin, List.foldl_cons]
    have hseed : List.foldl min (min x y) ys ≤ min x y :=
      ih (min x y) (min x y) (List.mem_cons_self _ _)
    rcases List.mem_cons.mp ha with h1 | h1
    · exact le_trans hseed (h1 ▸ min_le_left x y)
    · rcases List.mem_cons.mp h1 with h2 | h2
      · exact le_trans hseed (h2 ▸ min_le_right x y)
      · exact ih (min x y) a (List.mem_cons_of_mem _ h2)

theorem pymax_perm (x y : ℚ) (xs ys : List ℚ)
    (h : (x :: xs).Perm (y :: ys)) : pymax x xs = pymax y ys :=
  le_antisymm
    (le_pymax y ys _ (h.subset (pymax_mem x xs)))
    (le_pymax x xs _ (h.symm.subset (pymax_mem y ys)))

theorem pymin_perm (x y : ℚ) (xs ys : List ℚ)
    (h : (x :: xs).Perm (y :: ys)) : pymin x xs = pymin y ys :=
  le_antisymm
    (pymin_le x xs _ (h.symm.subset (pymin_mem y ys)))
    (pymin_le y ys _ (h.subset (pymin_mem x xs)))

theorem getLastD_eq_getLast (b : Bar) (bs : List Bar) :
    bs.getLastD b = (b :: bs).getLast (List.cons_ne_nil b bs) := by
  induction bs generalizing b with
  | nil => rfl
  | cons c cs ih =>
    rw [List.getLastD_cons, ih c]
    exact (List.getLast_cons (List.cons_ne_nil c cs)).symm

/-- The derived VWAP guard: the code's falsy test `if self.vol` agrees
with the positivity dichotomy whenever the volume is non-negative. -/
theorem Ohlc.vwap_pos_iff (o : Ohlc) (h0 : 0 ≤ o.vol) :
    Ohlc.vwap o = (if 0 < o.vol then some (o.amt / o.vol) else none) := by
  unfold Ohlc.vwap
  by_cases hz : o.vol = 0
  · simp [hz]
  · have hpos : 0 < o.vol := lt_of_le_of_ne h0 (Ne.symm hz)
    simp [hz, hpos]

/-- C8: `summarize_ohlc` of an empty bar list is nothing; of a non-empty
list (with the §3 invariant of non-negative volumes) it is the first
bar's open, the maximum high, the minimum low, the last bar's close, the
summed volume and summed value, with the derived VWAP equal to
value/volume when volume is positive and undefined otherwise. -/
theorem summarize_ohlc_spec :
    summarize_ohlc ([] : List Bar) = none ∧
    ∀ (b : Bar) (bs : List Bar), (∀ x ∈ b :: bs, 0 ≤ x.volume) →
      ∃ o, summarize_ohlc (b :: bs) = some o ∧
        o.open_ = b.open_ ∧
        o.high ∈ (b :: bs).map Bar.high ∧
        (∀ h ∈ (b :: bs).map Bar.high, h ≤ o.high) ∧
        o.low ∈ (b :: bs).map Bar.low ∧
        (∀ l ∈ (b :: bs).map Bar.low, o.low ≤ l) ∧
        o.close = ((b :: bs).getLast (List.cons_ne_nil b bs)).close ∧
        o.vol = ((b :: bs).map Bar.volume).sum ∧
        o.amt = ((b :: bs).map Bar.amount).sum ∧
        Ohlc.vwap o = (if 0 < o.vol then some (o.amt / o.vol) else none) := by
  refine ⟨rfl, ?_⟩
  intro b bs hvol
  refine ⟨_, rfl, rfl, ?_, ?_, ?_, ?_, ?_, rfl, rfl, ?_⟩
  · simpa using pymax_mem b.high (bs.map Bar.high)
  · simpa using le_pymax b.high (bs.map Bar.high)
  · simpa using pymin_mem b.low (bs.map Bar.low)
  · simpa using pymin_le b.low (bs.map Bar.low)
  · exact congrArg Bar.close (getLastD_eq_getLast b bs)
  · have h0 : 0 ≤ ((b :: bs).map Bar.volume).sum := by
      refine List.sum_nonneg ?_
      intro a ha
      obtain ⟨x, hx, rfl⟩ := List.mem_map.mp ha
      exact hvol x hx
    exact Ohlc.vwap_pos_iff _ h0

/-- Witness for C8: a concrete two-bar day. -/
theorem summarize_ohlc_spec_wit :
    summarize_ohlc ([] : List Bar) = none ∧
    (∀ x ∈ [(⟨0, 1, 2, 1, 2, 5, 7⟩ : Bar), ⟨1, 2, 3, 1, 2, 4, 9⟩], 0 ≤ x.volume) ∧
    ∃ o, summarize_ohlc [(⟨0, 1, 2, 1, 2, 5, 7⟩ : Bar), ⟨1, 2, 3, 1, 2, 4, 9⟩] =
        some o ∧
      o.open_ = (⟨0, 1, 2, 1, 2, 5, 7⟩ : Bar).open_ ∧
      o.high ∈ [(⟨0, 1, 2, 1, 2, 5, 7⟩ : Bar), ⟨1, 2, 3, 1, 2, 4, 9⟩].map Bar.high ∧
      (∀ h ∈ [(⟨0, 1, 2, 1, 2, 5, 7⟩ : Bar), ⟨1, 2, 3, 1, 2, 4, 9⟩].map Bar.high,
        h ≤ o.high) ∧
      o.low ∈ [(⟨0, 1, 2, 1, 2, 5, 7⟩ : Bar), ⟨1, 2, 3, 1, 2, 4, 9⟩].map Bar.low ∧
      (∀ l ∈ [(⟨0, 1, 2, 1, 2, 5, 7⟩ : Bar), ⟨1, 2, 3, 1, 2, 4, 9⟩].map Bar.low,
        o.low ≤ l) ∧
      o.close = ([(⟨0, 1, 2, 1, 2, 5, 7⟩ : Bar), ⟨1, 2, 3, 1, 2, 4, 9⟩].getLast
        (List.cons_ne_nil _ _)).close ∧
      o.vol = ([(⟨0, 1, 2, 1, 2, 5, 7⟩ : Bar), ⟨1, 2, 3, 1, 2, 4, 9⟩].map
        Bar.volume).sum ∧
      o.amt = ([(⟨0, 1, 2, 1, 2, 5, 7⟩ : Bar), ⟨1, 2, 3, 1, 2, 4, 9⟩].map
        Bar.amount).sum ∧
      Ohlc.vwap o = (if 0 < o.vol then some (o.amt / o.vol) else none) :=
  ⟨summarize_ohlc_spec.1, by decide,
   summarize_ohlc_spec.2 ⟨0, 1, 2, 1, 2, 5, 7⟩ [⟨1, 2, 3, 1, 2, 4, 9⟩]
     (by decide)⟩

/-- C4 (amended): `summarize_ohlc` does not sort internally, so only its
high, low, volume and value components are permutation-invariant; the
open and close follow the input order (ascending order is supplied by
the providers, which sort before returning). -/
theorem summarize_perm_invariant_parts (l1 l2 : List Bar) (h : l1.Perm l2) :
    (summarize_ohlc l1).map Ohlc.high = (summarize_ohlc l2).map Ohlc.high ∧
    (summarize_ohlc l1).map Ohlc.low = (summarize_ohlc l2).map Ohlc.low ∧
    (summarize_ohlc l1).map Ohlc.vol = (summarize_ohlc l2).map Ohlc.vol ∧
    (summarize_ohlc l1).map Ohlc.amt = (summarize_ohlc l2).map Ohlc.amt := by
  cases l1 with
  | nil =>
    have h2 : l2 = [] := List.Perm.eq_nil h.symm
    subst h2
    exact ⟨rfl, rfl, rfl, rfl⟩
  | cons a as =>
    cases l2 with
    | nil => exact absurd (List.Perm.eq_nil h) (List.cons_ne_nil a as)
    | cons c cs =>
      have hh : (a.high :: as.map Bar.high).Perm (c.high :: cs.map Bar.high) := by
        simpa using h.map Bar.high
      have hl : (a.low :: as.map Bar.low).Perm (c.low :: cs.map Bar.low) := by
        simpa using h.map Bar.low
      have hv : ((a :: as).map Bar.volume).sum = ((c :: cs).map Bar.volume).sum :=
        (h.map Bar.volume).sum_eq
      have hm : ((a :: as).map Bar.amount).sum = ((c :: cs).map Bar.amount).sum :=
        (h.map Bar.amount).sum_eq
      refine ⟨?_, ?_, ?_, ?_⟩ <;> simp only [summarize_ohlc, Option.map_some']
      · exact congrArg some (pymax_perm _ _ _ _ hh)
      · exact congrArg some (pymin_perm _ _ _ _ hl)
      · exact congrArg some hv
      · exact congrArg some hm

/-- Counterexample to C4 as stated: two bars whose order is swapped form
a permutation of the timestamp-sorted original, yet `summarize_ohlc`
yields a different output (the open is taken from whichever bar comes
first), because it does not sort internally. -/
theorem summarize_order_sensitive_cex :
    List.Perm [(⟨1, 2, 2, 2, 2, 1, 1⟩ : Bar), ⟨0, 1, 1, 1, 1, 1, 1⟩]
      [(⟨0, 1, 1, 1, 1, 1, 1⟩ : Bar), ⟨1, 2, 2, 2, 2, 1, 1⟩] ∧
    List.Pairwise (fun u v : Bar => u.dt < v.dt)
      [(⟨0, 1, 1, 1, 1, 1, 1⟩ : Bar), ⟨1, 2, 2, 2, 2, 1, 1⟩] ∧
    summarize_ohlc [(⟨1, 2, 2, 2, 2, 1, 1⟩ : Bar), ⟨0, 1, 1, 1, 1, 1, 1⟩] ≠
      summarize_ohlc [(⟨0, 1, 1, 1, 1, 1, 1⟩ : Bar), ⟨1, 2, 2, 2, 2, 1, 1⟩] := by
  refine ⟨List.Perm.swap _ _ _, by decide, ?_⟩
  intro heq
  have h2 := congrArg (Option.map Ohlc.open_) heq
  simp only [summarize_ohlc, Option.map_some', Option.some.injEq] at h2
  norm_num at h2

/-- Witness for the amended C4 at the same swapped pair of bars. -/
theorem summarize_perm_invariant_parts_wit :
    (summarize_ohlc [(⟨1, 2, 2, 2, 2, 1, 1⟩ : Bar), ⟨0, 1, 1, 1, 1, 1, 1⟩]).map
        Ohlc.high =
      (summarize_ohlc [(⟨0, 1, 1, 1, 1, 1, 1⟩ : Bar), ⟨1, 2, 2, 2, 2, 1, 1⟩]).map
        Ohlc.high ∧
    (summarize_ohlc [(⟨1, 2, 2, 2, 2, 1, 1⟩ : Bar), ⟨0, 1, 1, 1, 1, 1, 1⟩]).map
        Ohlc.low =
      (summarize_ohlc [(⟨0, 1, 1, 1, 1, 1, 1⟩ : Bar), ⟨1, 2, 2, 2, 2, 1, 1⟩]).map
        Ohlc.low ∧
    (summarize_ohlc [(⟨1, 2, 2, 2, 2, 1, 1⟩ : Bar), ⟨0, 1, 1, 1, 1, 1, 1⟩]).map
        Ohlc.vol =
      (summarize_ohlc [(⟨0, 1, 1, 1, 1, 1, 1⟩ : Bar), ⟨1, 2, 2, 2, 2, 1, 1⟩]).map
        Ohlc.vol ∧
    (summarize_ohlc [(⟨1, 2, 2, 2, 2, 1, 1⟩ : Bar), ⟨0, 1, 1, 1, 1, 1, 1⟩]).map
        Ohlc.amt =
      (summarize_ohlc [(⟨0, 1, 1, 1, 1, 1, 1⟩ : Bar), ⟨1, 2, 2, 2, 2, 1, 1⟩]).map
        Ohlc.amt :=
  summarize_perm_invariant_parts _ _ (List.Perm.swap _ _ _)

theorem chain_go_error_iff (rs : List (Except String (List Bar))) :
    ∀ acc, (∃ c, chain_kline_go acc rs = Except.error c) ↔
      ∀ r ∈ rs, failsOrEmpty r = true := by
  induction rs with
  | nil =>
    intro acc
    constructor
    · intro _ r hr
      cases hr
    · intro _
      exact ⟨acc, rfl⟩
  | cons r rs ih =>
    intro acc
    cases r with
    | error e =>
      simp only [chain_kline_go]
      constructor
      · intro hc x hx
        rcases List.mem_cons.mp hx with h1 | h1
        · rw [h1]; rfl
        · exact ((ih (some e)).mp hc) x h1
      · intro hall
        exact (ih (some e)).mpr fun x hx => hall x (List.mem_cons_of_mem _ hx)
    | ok bs =>
      by_cases hb : bs.isEmpty = true
      · simp only [chain_kline_go]
        rw [if_pos hb]
        constructor
        · intro hc x hx
          rcases List.mem_cons.mp hx with h1 | h1
          · rw [h1]; exact hb
          · exact ((ih acc).mp hc) x h1
        · intro hall
          exact (ih acc).mpr fun x hx => hall x (List.mem_cons_of_mem _ hx)
      · simp only [chain_kline_go]
        rw [if_neg hb]
        constructor
        · rintro ⟨c, hc⟩
          exact Except.noConfusion hc
        · intro hall
          exact absurd (hall (Except.ok bs) (List.mem_cons_self _ _)) hb

theorem chain_go_error_val (rs : List (Except String (List Bar))) :
    ∀ acc c, chain_kline_go acc rs = Except.error c →
      c = rs.foldl lastErrUpd acc := by
  induction rs with
  | nil =>
    intro acc c h
    exact (Except.error.inj h).symm
  | cons r rs ih =>
    intro acc c h
    cases r with
    | error e =>
      simp only [chain_kline_go] at h
      simp only [List.foldl_cons, lastErrUpd]
      exact ih (some e) c h
    | ok bs =>
      simp only [chain_kline_go] at h
      by_cases hb : bs.isEmpty = true
      · rw [if_pos hb] at h
        simp only [List.foldl_cons, lastErrUpd]
        exact ih acc c h
      · rw [if_neg hb] at h
        exact Except.noConfusion h

theorem chain_go_ok (rs : List (Except String (List Bar))) :
    ∀ acc bs, chain_kline_go acc rs = Except.ok bs →
      bs ≠ [] ∧ ∃ i, ∃ hlt : i < rs.length,
        rs.get ⟨i, hlt⟩ = Except.ok bs ∧
        ∀ r ∈ rs.take i, failsOrEmpty r = true := by
  induction rs with
  | nil =>
    intro acc bs h
    exact Except.noConfusion h
  | cons r rs ih =>
    intro acc bs h
    cases r with
    | error e =>
      simp only [chain_kline_go] at h
      obtain ⟨hne, i, hlt, hget, htake⟩ := ih (some e) bs h
      refine ⟨hne, i + 1, Nat.succ_lt_succ hlt, hget, ?_⟩
      intro x hx
      rw [List.take_succ_cons] at hx
      rcases List.mem_cons.mp hx with h1 | h1
      · rw [h1]; rfl
      · exact htake x h1
    | ok bs' =>
      simp only [chain_kline_go] at h
      by_cases hb : bs'.isEmpty = true
      · rw [if_pos hb] at h
        obtain ⟨hne, i, hlt, hget, htake⟩ := ih acc bs h
        refine ⟨hne, i + 1, Nat.succ_lt_succ hlt, hget, ?_⟩
        intro x hx
        rw [List.take_succ_cons] at hx
        rcases List.mem_cons.mp hx with h1 | h1
        · rw [h1]; exact hb
        · exact htake x h1
      · rw [if_neg hb] at h
        have hbs : bs = bs' := (Except.ok.inj h).symm
        subst hbs
        refine ⟨?_, 0, Nat.succ_pos _, rfl, ?_⟩
        · intro hnil
          exact hb (by simp [hnil])
        · intro x hx
          simp at hx

/-- C7: the chain's bars operation returns the first non-empty successful
provider result, skipping earlier providers that failed or returned
empty; it raises the chain error exactly when every provider fails or
returns empty, and the raised error embeds the last failure's cause
(`None` if no provider raised); a successful-but-empty head falls
through to the rest of the chain unchanged. -/
theorem chain_kline_spec (rs : List (Except String (List Bar))) :
    ((∃ c, chain_kline rs = Except.error c) ↔
      ∀ r ∈ rs, failsOrEmpty r = true) ∧
    (∀ c, chain_kline rs = Except.error c → c = lastErrOf rs) ∧
    (∀ bs, chain_kline rs = Except.ok bs →
      bs ≠ [] ∧ ∃ i, ∃ hlt : i < rs.length,
        rs.get ⟨i, hlt⟩ = Except.ok bs ∧
        ∀ r ∈ rs.take i, failsOrEmpty r = true) ∧
    (∀ rs2, chain_kline (Except.ok [] :: rs2) = chain_kline rs2) :=
  ⟨chain_go_error_iff rs none,
   fun c h => chain_go_error_val rs none c h,
   fun bs h => chain_go_ok rs none bs h,
   fun _ => rfl⟩

/-- Witness for C7: a chain whose first provider raises and whose second
succeeds with zero rows raises the chain error carrying the first
provider's cause; and an empty-success head falls through. -/
theorem chain_kline_spec_wit :
    (some "boom" : Option String) =
      lastErrOf [Except.error "boom", Except.ok []] ∧
    chain_kline (Except.ok [] :: [Except.error "x"]) =
      chain_kline [Except.error "x"] :=
  ⟨(chain_kline_spec [Except.error "boom", Except.ok []]).2.1
      (some "boom") rfl,
   (chain_kline_spec [Except.error "boom", Except.ok []]).2.2.2
      [Except.error "x"]⟩

end ReportV2

namespace PriceAlerts

theorem firedGet_firedSet_self (m : List (TrigKey × Bool)) (k : TrigKey) :
    firedGet (firedSet m k true) k = true := by
  simp [firedGet, firedSet, List.lookup]

theorem firedGet_firedSet_of_ne (m : List (TrigKey × Bool)) (k k' : TrigKey)
    (h : k' ≠ k) : firedGet (firedSet m k true) k' = firedGet m k' := by
  have hb : (k' == k) = false := beq_eq_false_iff_ne.mpr h
  simp [firedGet, firedSet, List.lookup, hb]

/-- C1: whenever a trigger fires, the state with that trigger-id marked
fired is persisted strictly before the notify capability is invoked (the
trace is exactly a save of the marked state followed by the notify), a
delivery failure never propagates (`send_message` returns normally for
every exit status), and the resulting state is independent of the
delivery outcome, so a failed delivery cannot undo the persisted mark. -/
theorem fire_persists_before_notify (st : AlertState) (ts : String)
    (key : TrigKey) (rc : Int) (channel target message : String)
    (h : firedGet st.fired key = false) :
    firedGet (fire st ts key rc).1.fired key = true ∧
    (fire st ts key rc).2 =
      [Event.saveState (fire st ts key rc).1, Event.notify key rc] ∧
    (fire st ts key rc).1 = (fire st ts key 0).1 ∧
    send_message channel target message rc = Except.ok ⟨rc⟩ := by
  refine ⟨?_, ?_, ?_, ?_⟩
  · simp [fire, h, firedGet_firedSet_self]
  · simp [fire, h]
  · simp [fire, h]
  · simp [send_message, subprocessRun]

/-- Witness for C1 at a concrete unfired state and nonzero exit status. -/
theorem fire_persists_before_notify_wit :
    firedGet (fire ⟨"2025-01-06", [], none, none⟩ "2025-01-06 10:00:00"
        (TrigKey.touchUp 1000) 7).1.fired (TrigKey.touchUp 1000) = true ∧
    (fire ⟨"2025-01-06", [], none, none⟩ "2025-01-06 10:00:00"
        (TrigKey.touchUp 1000) 7).2 =
      [Event.saveState (fire ⟨"2025-01-06", [], none, none⟩ "2025-01-06 10:00:00"
          (TrigKey.touchUp 1000) 7).1,
       Event.notify (TrigKey.touchUp 1000) 7] ∧
    (fire ⟨"2025-01-06", [], none, none⟩ "2025-01-06 10:00:00"
        (TrigKey.touchUp 1000) 7).1 =
      (fire ⟨"2025-01-06", [], none, none⟩ "2025-01-06 10:00:00"
          (TrigKey.touchUp 1000) 0).1 ∧
    send_message "discord" "channel:1470480529609588888" "msg" 7 =
      Except.ok ⟨7⟩ :=
  fire_persists_before_notify ⟨"2025-01-06", [], none, none⟩
    "2025-01-06 10:00:00" (TrigKey.touchUp 1000) 7
    "discord" "channel:1470480529609588888" "msg" (by decide)

/-- C6: on a date rollover the loaded state is discarded wholesale — the
evaluation state becomes the fresh empty state for today (no merging), a
trigger-id fired on the prior date reads as unfired, and the whole
evaluation behaves exactly as if no state file existed. -/
theorem new_day_discards_state (cfg : Config) (st : AlertState) (q : Quote)
    (vwap : Option ℚ) (rc : Int) (k : TrigKey) (h : st.date ≠ q.date) :
    resetIfNewDay q.date (some st) = ⟨q.date, [], none, none⟩ ∧
    firedGet (resetIfNewDay q.date (some st)).fired k = false ∧
    evaluate cfg (some st) q vwap rc = evaluate cfg none q vwap rc := by
  have h1 : resetIfNewDay q.date (some st) = ⟨q.date, [], none, none⟩ := by
    simp [resetIfNewDay, h]
  refine ⟨h1, ?_, ?_⟩
  · rw [h1]; rfl
  · simp [evaluate, resetIfNewDay, h]

/-- Witness for C6: a state that fired `touch_up_10.00` on 2025-01-03
is discarded entirely when evaluation runs on 2025-01-06. -/
theorem new_day_discards_state_wit :
    resetIfNewDay "2025-01-06"
        (some ⟨"2025-01-03", [(TrigKey.touchUp 1000, true)], some Rel.above,
               some "2025-01-03 09:35:00"⟩) =
      (⟨"2025-01-06", [], none, none⟩ : AlertState) ∧
    firedGet (resetIfNewDay "2025-01-06"
        (some ⟨"2025-01-03", [(TrigKey.touchUp 1000, true)], some Rel.above,
               some "2025-01-03 09:35:00"⟩)).fired (TrigKey.touchUp 1000) = false ∧
    evaluate ⟨[10], 9, true⟩
        (some ⟨"2025-01-03", [(TrigKey.touchUp 1000, true)], some Rel.above,
               some "2025-01-03 09:35:00"⟩)
        ⟨"X", 10, 10, 10, 10, 10, 0, 0, "2025-01-06", "10:00:00"⟩ none 0 =
      evaluate ⟨[10], 9, true⟩ none
        ⟨"X", 10, 10, 10, 10, 10, 0, 0, "2025-01-06", "10:00:00"⟩ none 0 :=
  new_day_discards_state ⟨[10], 9, true⟩
    ⟨"2025-01-03", [(TrigKey.touchUp 1000, true)], some Rel.above,
     some "2025-01-03 09:35:00"⟩
    ⟨"X", 10, 10, 10, 10, 10, 0, 0, "2025-01-06", "10:00:00"⟩ none 0
    (TrigKey.touchUp 1000) (by decide)

/-- C9: invoked on a Saturday or Sunday, or at a time of day outside the
inclusive sessions 09:30-11:30 and 13:00-15:00, the poll produces no
events at all: no quote fetch, no state read or write, no notify. -/
theorem off_hours_no_effects (now : Clock) (cfg : Config)
    (loaded : Option AlertState) (q : Quote) (vwap : Option ℚ) (rc : Int)
    (h : now.weekday = 5 ∨ now.weekday = 6 ∨
         (¬(34200 ≤ now.secs ∧ now.secs ≤ 41400) ∧
          ¬(46800 ≤ now.secs ∧ now.secs ≤ 54000))) :
    runPoll now cfg loaded q vwap rc = [] := by
  have ht : is_trading_time now = false := by
    unfold is_trading_time
    split_ifs with h1 h2 h3
    · rfl
    · exfalso
      rcases h with h | h | h
      · omega
      · omega
      · exact h.1 h2
    · exfalso
      rcases h with h | h | h
      · omega
      · omega
      · exact h.2 h3
    · rfl
  simp [runPoll, ht]

/-- Witness for C9: a Sunday mid-morning invocation does nothing. -/
theorem off_hours_no_effects_wit :
    runPoll ⟨6, 36000⟩ ⟨[10], 9, true⟩ none
      ⟨"X", 10, 10, 10, 10, 10, 0, 0, "2025-01-05", "10:00:00"⟩ none 0 = [] :=
  off_hours_no_effects ⟨6, 36000⟩ ⟨[10], 9, true⟩ none
    ⟨"X", 10, 10, 10, 10, 10, 0, 0, "2025-01-05", "10:00:00"⟩ none 0
    (Or.inr (Or.inl rfl))

theorem evalVwapCross_vwap_congr (st : AlertState) (ts : String) (rc : Int)
    (en : Bool) (v1 v2 : Option ℚ) (rel : Option Rel)
    (h : truthy v1 = truthy v2) :
    evalVwapCross st ts rc en v1 rel = evalVwapCross st ts rc en v2 rel := by
  unfold evalVwapCross
  rw [h]

theorem fire_of_unfired (st : AlertState) (ts : String) (key : TrigKey)
    (rc : Int) (h : firedGet st.fired key = false) :
    fire st ts key rc =
      ({ st with fired := firedSet st.fired key true, lastFireAt := some ts },
       [Event.saveState
          { st with fired := firedSet st.fired key true, lastFireAt := some ts },
        Event.notify key rc]) := by
  simp [fire, h]

/-- Over a strictly ascending level list, the level loop fires exactly the
least level that is reached by the price and not yet fired. -/
theorem evalLevels_least (levels : List ℚ) (st : AlertState) (ts : String)
    (price : ℚ) (rc : Int) (lv₀ : ℚ)
    (hsorted : List.Pairwise (fun a b : ℚ => a < b) levels)
    (hmem : lv₀ ∈ levels) (hge : price ≥ lv₀)
    (hunf : firedGet st.fired (TrigKey.touchUp (quant2 lv₀)) = false)
    (hmin : ∀ lv ∈ levels, price ≥ lv →
        firedGet st.fired (TrigKey.touchUp (quant2 lv)) = false → lv₀ ≤ lv) :
    evalLevels st ts price rc levels =
      some (fire st ts (TrigKey.touchUp (quant2 lv₀)) rc) := by
  induction levels with
  | nil => cases hmem
  | cons h t ih =>
    rw [List.pairwise_cons] at hsorted
    by_cases hc : price ≥ h ∧ firedGet st.fired (TrigKey.touchUp (quant2 h)) = false
    · have hle : lv₀ ≤ h := hmin h (List.mem_cons_self h t) hc.1 hc.2
      have heq : lv₀ = h := by
        rcases List.mem_cons.mp hmem with hh | ht
        · exact hh
        · exact absurd hle (not_le.mpr (hsorted.1 lv₀ ht))
      subst heq
      simp only [evalLevels]
      rw [if_pos hc]
    · have ht : lv₀ ∈ t := by
        rcases List.mem_cons.mp hmem with hh | ht
        · exact absurd ⟨hh ▸ hge, hh ▸ hunf⟩ hc
        · exact ht
      have := ih hsorted.2 ht
        (fun lv hlv hplv hflv => hmin lv (List.mem_cons_of_mem h hlv) hplv hflv)
      simp only [evalLevels]
      rw [if_neg hc]
      exact this

/-- C3: with a strictly ascending level list, when the price reaches at
least one untriggered level on a poll, the evaluation trace is exactly one
save followed by one notify for the lowest untriggered reached level, and
nothing further is evaluated on that poll. -/
theorem lowest_untriggered_level_fires (cfg : Config) (st : AlertState)
    (q : Quote) (vwap : Option ℚ) (rc : Int) (lv₀ : ℚ)
    (hsorted : List.Pairwise (fun a b : ℚ => a < b) cfg.levelsUp)
    (hdate : st.date = q.date)
    (hmem : lv₀ ∈ cfg.levelsUp) (hge : q.price ≥ lv₀)
    (hunf : firedGet st.fired (TrigKey.touchUp (quant2 lv₀)) = false)
    (hmin : ∀ lv ∈ cfg.levelsUp, q.price ≥ lv →
        firedGet st.fired (TrigKey.touchUp (quant2 lv)) = false → lv₀ ≤ lv) :
    ∃ st', evaluate cfg (some st) q vwap rc =
        (st', [Event.saveState st',
               Event.notify (TrigKey.touchUp (quant2 lv₀)) rc]) ∧
      firedGet st'.fired (TrigKey.touchUp (quant2 lv₀)) = true := by
  have hreset : resetIfNewDay q.date (some st) = st := by
    simp [resetIfNewDay, hdate]
  have hL := evalLevels_least cfg.levelsUp st (q.date ++ " " ++ q.time)
    q.price rc lv₀ hsorted hmem hge hunf hmin
  have hev : evaluate cfg (some st) q vwap rc =
      fire st (q.date ++ " " ++ q.time) (TrigKey.touchUp (quant2 lv₀)) rc := by
    simp only [evaluate, hreset, hL]
  refine ⟨{ st with
      fired := firedSet st.fired (TrigKey.touchUp (quant2 lv₀)) true
      lastFireAt := some (q.date ++ " " ++ q.time) }, ?_,
    firedGet_firedSet_self _ _⟩
  rw [hev]
  exact fire_of_unfired st _ _ rc hunf

/-- Witness for C3: the §8 scenario — levels 10.00 and 10.03, price 10.05,
fresh state — notifies exactly `touch_up_10.00`. -/
theorem lowest_untriggered_level_fires_wit :
    notifiedKeys (evaluate ⟨[10, mkRat 1003 100], mkRat 986 100, true⟩
        (some ⟨"2025-01-06", [], none, none⟩)
        ⟨"X", 10, mkRat 97 10, mkRat 1005 100, mkRat 1005 100, mkRat 99 10,
         0, 0, "2025-01-06", "10:00:00"⟩
        none 0).2 = [TrigKey.touchUp (quant2 10)] := by
  obtain ⟨st', h1, h2⟩ := lowest_untriggered_level_fires
    ⟨[10, mkRat 1003 100], mkRat 986 100, true⟩
    ⟨"2025-01-06", [], none, none⟩
    ⟨"X", 10, mkRat 97 10, mkRat 1005 100, mkRat 1005 100, mkRat 99 10,
     0, 0, "2025-01-06", "10:00:00"⟩
    none 0 10 (by decide) rfl (by decide) (by decide) (by decide) (by decide)
  rw [h1]
  rfl

theorem resetIfNewDay_date (day : String) (loaded : Option AlertState) :
    (resetIfNewDay day loaded).date = day := by
  cases loaded with
  | none => rfl
  | some s =>
    by_cases h : s.date = day
    · simp [resetIfNewDay, h]
    · simp [resetIfNewDay, h]

theorem evalLevels_some (st : AlertState) (ts : String) (price : ℚ) (rc : Int)
    (levels : List ℚ) (r : AlertState × List Event)
    (h : evalLevels st ts price rc levels = some r) :
    ∃ lv, price ≥ lv ∧ firedGet st.fired (TrigKey.touchUp (quant2 lv)) = false ∧
      r = fire st ts (TrigKey.touchUp (quant2 lv)) rc := by
  induction levels with
  | nil => exact Option.noConfusion h
  | cons lv t ih =>
    simp only [evalLevels] at h
    split at h
    · rename_i hc
      exact ⟨lv, hc.1, hc.2, (Option.some.inj h).symm⟩
    · exact ih h

theorem evalBreakdown_some (st : AlertState) (ts : String) (price : ℚ)
    (rc : Int) (bd : ℚ) (r : AlertState × List Event)
    (h : evalBreakdown st ts price rc bd = some r) :
    price < bd ∧ firedGet st.fired (TrigKey.breakDn (quant2 bd)) = false ∧
      r = fire st ts (TrigKey.breakDn (quant2 bd)) rc := by
  unfold evalBreakdown at h
  split at h
  · rename_i hc
    exact ⟨hc.1, hc.2, (Option.some.inj h).symm⟩
  · exact Option.noConfusion h

/-- Any trace produced by a `fire` on an unfired key is one save of the
marked state followed by one notify. -/
theorem fire_shape (st : AlertState) (ts : String) (key : TrigKey) (rc : Int)
    (h : firedGet st.fired key = false) :
    (fire st ts key rc).1.date = st.date ∧
    notifiedKeys (fire st ts key rc).2 = [key] ∧
    (fire st ts key rc).1.fired = firedSet st.fired key true := by
  rw [fire_of_unfired st ts key rc h]
  exact ⟨rfl, rfl, rfl⟩

theorem evalVwapCross_shape (st : AlertState) (ts : String) (rc : Int)
    (en : Bool) (vwap : Option ℚ) (rel : Option Rel) :
    (evalVwapCross st ts rc en vwap rel).1.date = st.date ∧
    ((notifiedKeys (evalVwapCross st ts rc en vwap rel).2 = [] ∧
      (evalVwapCross st ts rc en vwap rel).1.fired = st.fired) ∨
     (∃ k, notifiedKeys (evalVwapCross st ts rc en vwap rel).2 = [k] ∧
       firedGet st.fired k = false ∧
       (evalVwapCross st ts rc en vwap rel).1.fired =
         firedSet st.fired k true)) := by
  cases rel with
  | none => exact ⟨rfl, Or.inl ⟨rfl, rfl⟩⟩
  | some r =>
    simp only [evalVwapCross]
    split_ifs with h1 h2 h3
    · rw [fire_of_unfired st ts (TrigKey.vwapCross r) rc h3]
      exact ⟨rfl, Or.inr ⟨TrigKey.vwapCross r, rfl, h3, rfl⟩⟩
    · exact ⟨rfl, Or.inl ⟨rfl, rfl⟩⟩
    · exact ⟨rfl, Or.inl ⟨rfl, rfl⟩⟩
    · exact ⟨rfl, Or.inl ⟨rfl, rfl⟩⟩

/-- One evaluation keeps the quote's date, fires at most one key, only an
unfired one, and records exactly that key in the resulting state. -/
theorem eval_shape (cfg : Config) (loaded : Option AlertState) (q : Quote)
    (vwap : Option ℚ) (rc : Int) :
    (evaluate cfg loaded q vwap rc).1.date = q.date ∧
    ((notifiedKeys (evaluate cfg loaded q vwap rc).2 = [] ∧
      (evaluate cfg loaded q vwap rc).1.fired =
        (resetIfNewDay q.date loaded).fired) ∨
     (∃ k, notifiedKeys (evaluate cfg loaded q vwap rc).2 = [k] ∧
       firedGet (resetIfNewDay q.date loaded).fired k = false ∧
       (evaluate cfg loaded q vwap rc).1.fired =
         firedSet (resetIfNewDay q.date loaded).fired k true)) := by
  have hstd : (resetIfNewDay q.date loaded).date = q.date :=
    resetIfNewDay_date q.date loaded
  cases hE : evalLevels (resetIfNewDay q.date loaded) (q.date ++ " " ++ q.time)
      q.price rc cfg.levelsUp with
  | some r =>
    obtain ⟨lv, hge, hf, hr⟩ := evalLevels_some _ _ _ _ _ _ hE
    have hev : evaluate cfg loaded q vwap rc = r := by
      simp only [evaluate, hE]
    rw [hev, hr]
    obtain ⟨hdd, hnk, hfd⟩ := fire_shape _ _ _ rc hf
    exact ⟨hdd.trans hstd,
           Or.inr ⟨TrigKey.touchUp (quant2 lv), hnk, hf, hfd⟩⟩
  | none =>
    cases hB : evalBreakdown (resetIfNewDay q.date loaded)
        (q.date ++ " " ++ q.time) q.price rc cfg.breakdown with
    | some r =>
      obtain ⟨hlt, hf, hr⟩ := evalBreakdown_some _ _ _ _ _ _ hB
      have hev : evaluate cfg loaded q vwap rc = r := by
        simp only [evaluate, hE, hB]
      rw [hev, hr]
      obtain ⟨hdd, hnk, hfd⟩ := fire_shape _ _ _ rc hf
      exact ⟨hdd.trans hstd,
             Or.inr ⟨TrigKey.breakDn (quant2 cfg.breakdown), hnk, hf, hfd⟩⟩
    | none =>
      have hev : evaluate cfg loaded q vwap rc =
          evalVwapCross (resetIfNewDay q.date loaded) (q.date ++ " " ++ q.time)
            rc cfg.vwapCross vwap (relOf q.price vwap) := by
        simp only [evaluate, hE, hB]
      rw [hev]
      obtain ⟨hdd, hsh⟩ := evalVwapCross_shape (resetIfNewDay q.date loaded)
        (q.date ++ " " ++ q.time) rc cfg.vwapCross vwap (relOf q.price vwap)
      exact ⟨hdd.trans hstd, hsh⟩

/-- C2 (amended): each evaluation fires at most one notification, and a
trigger-id notified (and persisted) by the first evaluation is never
notified again by a second evaluation on the same inputs that loads the
state the first one produced; the two calls may however notify two
distinct trigger-ids. -/
theorem evaluate_twice_no_refire (cfg : Config) (loaded : Option AlertState)
    (q : Quote) (vwap : Option ℚ) (rc : Int) :
    (notifiedKeys (evaluate cfg loaded q vwap rc).2).length ≤ 1 ∧
    (notifiedKeys (evaluate cfg (some (evaluate cfg loaded q vwap rc).1)
        q vwap rc).2).length ≤ 1 ∧
    ∀ k, k ∈ notifiedKeys (evaluate cfg loaded q vwap rc).2 →
      k ∉ notifiedKeys (evaluate cfg (some (evaluate cfg loaded q vwap rc).1)
        q vwap rc).2 := by
  obtain ⟨hd1, hs1⟩ := eval_shape cfg loaded q vwap rc
  obtain ⟨hd2, hs2⟩ := eval_shape cfg (some (evaluate cfg loaded q vwap rc).1)
    q vwap rc
  have hreset2 : resetIfNewDay q.date (some (evaluate cfg loaded q vwap rc).1) =
      (evaluate cfg loaded q vwap rc).1 := by
    simp [resetIfNewDay, hd1]
  refine ⟨?_, ?_, ?_⟩
  · rcases hs1 with ⟨hn, _⟩ | ⟨k, hn, _, _⟩ <;> simp [hn]
  · rcases hs2 with ⟨hn, _⟩ | ⟨k, hn, _, _⟩ <;> simp [hn]
  · intro k hk
    rcases hs1 with ⟨hn1, _⟩ | ⟨k1, hn1, hk1f, hfired1⟩
    · rw [hn1] at hk
      cases hk
    · rw [hn1] at hk
      have hk1 : k = k1 := by simpa using hk
      rcases hs2 with ⟨hn2, _⟩ | ⟨k2, hn2, hk2f, _⟩
      · rw [hn2]
        simp
      · rw [hn2]
        simp only [List.mem_singleton]
        intro hek
        rw [hreset2, hfired1] at hk2f
        rw [hk1] at hek
        rw [← hek, firedGet_firedSet_self] at hk2f
        exact Bool.noConfusion hk2f

/-- Counterexample to C2 as stated: levels 10.00 and 10.03 with price
10.05 — the first evaluation fires `touch_up_10.00` and returns; the
second evaluation on identical inputs, loading the persisted state, skips
the fired 10.00 but fires `touch_up_10.03`: two notifications in total. -/
theorem evaluate_twice_two_notifies_cex :
    (notifiedKeys (evaluate ⟨[10, mkRat 1003 100], mkRat 986 100, true⟩ none
        ⟨"X", 10, mkRat 97 10, mkRat 1005 100, mkRat 1005 100, mkRat 99 10,
         0, 0, "2025-01-06", "10:00:00"⟩ none 0).2).length +
    (notifiedKeys (evaluate ⟨[10, mkRat 1003 100], mkRat 986 100, true⟩
        (some (evaluate ⟨[10, mkRat 1003 100], mkRat 986 100, true⟩ none
          ⟨"X", 10, mkRat 97 10, mkRat 1005 100, mkRat 1005 100, mkRat 99 10,
           0, 0, "2025-01-06", "10:00:00"⟩ none 0).1)
        ⟨"X", 10, mkRat 97 10, mkRat 1005 100, mkRat 1005 100, mkRat 99 10,
         0, 0, "2025-01-06", "10:00:00"⟩ none 0).2).length = 2 := by
  decide

/-- Witness for the amended C2 at the same concrete inputs: the second
evaluation never re-notifies `touch_up_10.00`, which the first fired. -/
theorem evaluate_twice_no_refire_wit :
    (notifiedKeys (evaluate ⟨[10, mkRat 1003 100], mkRat 986 100, true⟩ none
        ⟨"X", 10, mkRat 97 10, mkRat 1005 100, mkRat 1005 100, mkRat 99 10,
         0, 0, "2025-01-06", "10:00:00"⟩ none 0).2).length ≤ 1 ∧
    TrigKey.touchUp 1000 ∉
      notifiedKeys (evaluate ⟨[10, mkRat 1003 100], mkRat 986 100, true⟩
        (some (evaluate ⟨[10, mkRat 1003 100], mkRat 986 100, true⟩ none
          ⟨"X", 10, mkRat 97 10, mkRat 1005 100, mkRat 1005 100, mkRat 99 10,
           0, 0, "2025-01-06", "10:00:00"⟩ none 0).1)
        ⟨"X", 10, mkRat 97 10, mkRat 1005 100, mkRat 1005 100, mkRat 99 10,
         0, 0, "2025-01-06", "10:00:00"⟩ none 0).2 :=
  ⟨(evaluate_twice_no_refire ⟨[10, mkRat 1003 100], mkRat 986 100, true⟩ none
      ⟨"X", 10, mkRat 97 10, mkRat 1005 100, mkRat 1005 100, mkRat 99 10,
       0, 0, "2025-01-06", "10:00:00"⟩ none 0).1,
   (evaluate_twice_no_refire ⟨[10, mkRat 1003 100], mkRat 986 100, true⟩ none
      ⟨"X", 10, mkRat 97 10, mkRat 1005 100, mkRat 1005 100, mkRat 99 10,
       0, 0, "2025-01-06", "10:00:00"⟩ none 0).2.2
     (TrigKey.touchUp 1000) (by decide)⟩

/-- C5 (amended): on a poll where the cross trigger is enabled, the VWAP
is available (truthy), the computed relation is strictly `above` or
`below`, and neither an upside level nor the breakdown fired earlier in
the poll, the latest relation is written back to persisted state whether
or not a cross fired: the final state carries it and is saved.  (As
stated, the claim fails when the relation is `equal` or when an earlier
trigger fired and returned: no write happens then.) -/
theorem vwap_rel_written_back (cfg : Config) (st : AlertState) (q : Quote)
    (vwap : Option ℚ) (rc : Int) (r : Rel)
    (hen : cfg.vwapCross = true)
    (hdate : st.date = q.date)
    (htr : truthy vwap = true)
    (hr : relOf q.price vwap = some r)
    (hab : r = Rel.above ∨ r = Rel.below)
    (hlv : evalLevels st (q.date ++ " " ++ q.time) q.price rc cfg.levelsUp = none)
    (hbd : evalBreakdown st (q.date ++ " " ++ q.time) q.price rc
        cfg.breakdown = none) :
    (evaluate cfg (some st) q vwap rc).1.vwapRel = some r ∧
    Event.saveState (evaluate cfg (some st) q vwap rc).1 ∈
      (evaluate cfg (some st) q vwap rc).2 := by
  have hreset : resetIfNewDay q.date (some st) = st := by
    simp [resetIfNewDay, hdate]
  have hev : evaluate cfg (some st) q vwap rc =
      evalVwapCross st (q.date ++ " " ++ q.time) rc cfg.vwapCross vwap
        (relOf q.price vwap) := by
    simp only [evaluate, hreset, hlv, hbd]
  rw [hev, hr]
  simp only [evalVwapCross]
  rw [if_pos ⟨hen, htr, hab⟩]
  split_ifs with h2 h3
  · rw [fire_of_unfired st _ _ rc h3]
    refine ⟨rfl, ?_⟩
    simp
  · exact ⟨rfl, by simp⟩
  · exact ⟨rfl, by simp⟩

/-- Counterexample to C5 as stated: cross enabled, VWAP available (10,
truthy) and price exactly at it, so the relation is `equal`; no trigger
fires, yet nothing is written back — the trace is empty and the stale
`below` relation survives in the state. -/
theorem vwap_rel_not_written_cex :
    (⟨[], 0, true⟩ : Config).vwapCross = true ∧
    truthy (some 10) = true ∧
    relOf (10 : ℚ) (some 10) = some Rel.equal ∧
    evaluate ⟨[], 0, true⟩ (some ⟨"2025-01-06", [], some Rel.below, none⟩)
        ⟨"X", 10, mkRat 97 10, 10, 10, mkRat 99 10, 0, 0, "2025-01-06",
         "10:00:00"⟩ (some 10) 0 =
      (⟨"2025-01-06", [], some Rel.below, none⟩, []) := by
  decide

/-- Witness for the amended C5: price 10 above VWAP 9, no prior relation,
no other trigger; the relation `above` is persisted. -/
theorem vwap_rel_written_back_wit :
    (evaluate ⟨[], 0, true⟩ (some ⟨"2025-01-06", [], none, none⟩)
        ⟨"X", 10, mkRat 97 10, 10, 10, mkRat 99 10, 0, 0, "2025-01-06",
         "10:00:00"⟩ (some 9) 0).1.vwapRel = some Rel.above ∧
    Event.saveState (evaluate ⟨[], 0, true⟩
        (some ⟨"2025-01-06", [], none, none⟩)
        ⟨"X", 10, mkRat 97 10, 10, 10, mkRat 99 10, 0, 0, "2025-01-06",
         "10:00:00"⟩ (some 9) 0).1 ∈
      (evaluate ⟨[], 0, true⟩ (some ⟨"2025-01-06", [], none, none⟩)
        ⟨"X", 10, mkRat 97 10, 10, 10, mkRat 99 10, 0, 0, "2025-01-06",
         "10:00:00"⟩ (some 9) 0).2 :=
  vwap_rel_written_back ⟨[], 0, true⟩ ⟨"2025-01-06", [], none, none⟩
    ⟨"X", 10, mkRat 97 10, 10, 10, mkRat 99 10, 0, 0, "2025-01-06",
     "10:00:00"⟩ (some 9) 0 Rel.above rfl rfl (by decide) (by decide)
    (Or.inl rfl) rfl (by decide)

/-- C10: `compute_vwap` never divides by zero — it returns `none` when no
kline row matches the requested day and when the summed volume is zero —
and the evaluation treats a VWAP of exactly 0 as unavailable: no relation
is computed from it and the whole evaluation coincides with the
no-VWAP evaluation, so the cross trigger is skipped. -/
theorem vwap_zero_guard :
    (∀ (rows : List KRow) (yyyy_mm_dd : String),
       rows.filter (fun r => pyStartsWith r.day yyyy_mm_dd) = [] →
       compute_vwap rows yyyy_mm_dd = none) ∧
    (∀ (rows : List KRow) (yyyy_mm_dd : String),
       ((rows.filter (fun r => pyStartsWith r.day yyyy_mm_dd)).map KRow.volume).sum = 0 →
       compute_vwap rows yyyy_mm_dd = none) ∧
    (∀ price : ℚ, relOf price (some 0) = none) ∧
    (∀ (cfg : Config) (loaded : Option AlertState) (q : Quote) (rc : Int),
       evaluate cfg loaded q (some 0) rc = evaluate cfg loaded q none rc) := by
  refine ⟨?_, ?_, ?_, ?_⟩
  · intro rows d h
    simp [compute_vwap, h]
  · intro rows d h
    unfold compute_vwap
    by_cases he : rows.filter (fun r => pyStartsWith r.day d) = []
    · simp [he]
    · simp [he, h]
  · intro price
    simp [relOf]
  · intro cfg loaded q rc
    have h1 : relOf q.price (some 0) = relOf q.price none := by simp [relOf]
    have h2 : truthy (some (0 : ℚ)) = truthy none := by simp [truthy]
    simp only [evaluate]
    rw [h1, evalVwapCross_vwap_congr _ _ _ _ _ none _ h2]

/-- Witness for C10 at concrete rows, and a concrete poll where a VWAP
of 0 evaluates identically to an absent VWAP. -/
theorem vwap_zero_guard_wit :
    compute_vwap [⟨"2025-01-05 10:00:00", 5, 50⟩] "2025-01-06" = none ∧
    compute_vwap [⟨"2025-01-06 10:00:00", 0, 0⟩] "2025-01-06" = none ∧
    relOf 10 (some 0) = none ∧
    evaluate ⟨[10], 9, true⟩ none
        ⟨"X", 10, 10, 10, 10, 10, 0, 0, "2025-01-06", "10:00:00"⟩ (some 0) 0 =
      evaluate ⟨[10], 9, true⟩ none
        ⟨"X", 10, 10, 10, 10, 10, 0, 0, "2025-01-06", "10:00:00"⟩ none 0 :=
  ⟨vwap_zero_guard.1 [⟨"2025-01-05 10:00:00", 5, 50⟩] "2025-01-06" (by decide),
   vwap_zero_guard.2.1 [⟨"2025-01-06 10:00:00", 0, 0⟩] "2025-01-06" (by
     have h : List.filter (fun r => pyStartsWith r.day "2025-01-06")
         [(⟨"2025-01-06 10:00:00", 0, 0⟩ : KRow)] =
         [(⟨"2025-01-06 10:00:00", 0, 0⟩ : KRow)] := by decide
     rw [h]
     simp),
   vwap_zero_guard.2.2.1 10,
   vwap_zero_guard.2.2.2 ⟨[10], 9, true⟩ none
     ⟨"X", 10, 10, 10, 10, 10, 0, 0, "2025-01-06", "10:00:00"⟩ 0⟩

end PriceAlerts
